import Mathlib

/-!
Shallow embedding of the sudo-awk/carhacking decoding scripts
(src/time_decode.py, src/find_threshold.py, src/bit_candecoder.py).

Python floats are modelled as rationals (the scripts only subtract,
compare, sort and average them), Python strings as `List Char`, byte
values as natural numbers, and functions that can signal "no result"
return `Option`.  Fatal top-level guards (`sys.exit(1)` paths) are
modelled with `Except`.
-/

namespace CarHacking

/-- Errors surfaced by the scripts' fatal top-level guards. -/
inductive PipelineError where
  | NotFound
deriving DecidableEq

/-- gaps_from_timestamps (identical in src/time_decode.py and
src/find_threshold.py): `[ts[i] - ts[i-1] for i in range(1, len(ts))]`. -/
def gaps_from_timestamps (ts : List ℚ) : List ℚ :=
  List.zipWith (fun a b => a - b) (ts.drop 1) ts

namespace TimeDecode

/-- bits_from_gaps (src/time_decode.py, lines 25-30): one character per
gap, `short_is` when the gap is below the threshold, otherwise the
opposite binary digit. -/
def bits_from_gaps (gaps : List ℚ) (threshold : ℚ) (short_is : Char) : List Char :=
  gaps.map fun g => if g < threshold then short_is else if short_is = '0' then '1' else '0'

/-- Value of a chunk of '0'/'1' characters read as a binary numeral:
the embedding of Python `int(chunk, 2)` on such chunks. -/
def chunkVal (chunk : List Char) : ℕ :=
  chunk.foldl (fun a c => 2 * a + (if c = '1' then 1 else 0)) 0

/-- The loop of pack_bits_to_bytes (src/time_decode.py, lines 36-40):
take consecutive chunks of 8 symbols, stop at a chunk shorter than 8,
reverse a chunk before interpreting it when `lsb_first`. -/
def packLoop (lsb_first : Bool) : List Char → List ℕ
  | b1 :: b2 :: b3 :: b4 :: b5 :: b6 :: b7 :: b8 :: rest =>
      chunkVal (if lsb_first then [b1, b2, b3, b4, b5, b6, b7, b8].reverse
                else [b1, b2, b3, b4, b5, b6, b7, b8]) :: packLoop lsb_first rest
  | _ => []

/-- pack_bits_to_bytes (src/time_decode.py, lines 32-41): drop the first
`offset` symbols, then pack chunks of 8.  Deterministic and pure by
construction (a Lean function of its three arguments). -/
def pack_bits_to_bytes (bitstr : List Char) (offset : ℕ) (lsb_first : Bool) : List ℕ :=
  packLoop lsb_first (bitstr.drop offset)

/-- The marker "flag\x7b" searched for by extract_flag. -/
def flagPat : List Char := ['f', 'l', 'a', 'g', '\x7b']

/-- The shorter marker "flag" used by the startswith checks of the
sequential and reversed branches of extract_flag. -/
def flagWord : List Char := ['f', 'l', 'a', 'g']

/-- Decoding of one byte in extract_flag:
`chr(b) if 32 <= b < 127 else '.'`. -/
def byteChar (b : ℕ) : Char :=
  if 32 ≤ b ∧ b < 127 then Char.ofNat b else '.'

/-- `''.join(chr(b) if 32 <= b < 127 else '.' for b in bs)`. -/
def strOf (bs : List ℕ) : List Char :=
  bs.map byteChar

/-- Python `s.lower()` on the decoded characters. -/
def lowerStr (s : List Char) : List Char :=
  s.map Char.toLower

/-- Python `s.find(p)` for a pattern string `p`: index of the first
occurrence, `none` when there is none. -/
def findSub (p : List Char) : List Char → Option ℕ
  | [] => if p.isPrefixOf ([] : List Char) then some 0 else none
  | c :: rest =>
      if p.isPrefixOf (c :: rest) then some 0
      else (findSub p rest).map (· + 1)

/-- Python `s.find(c)` for a single character. -/
def findCh (c : Char) : List Char → Option ℕ
  | [] => none
  | x :: rest => if x = c then some 0 else (findCh c rest).map (· + 1)

/-- The beginning-collection loop of the wrapped branch of extract_flag
(src/time_decode.py, lines 54-60): append every character other than
'.', stop right after the terminator. -/
def scanBeginning : List Char → List Char
  | [] => []
  | c :: rest =>
      if c = '\x7d' then ['\x7d']
      else if c = '.' then scanBeginning rest
      else c :: scanBeginning rest

/-- The forward-accumulation loop of the sequential and reversed
branches of extract_flag (src/time_decode.py, lines 74-81 and 91-98):
append every character other than '.', stop right after the
terminator. -/
def scanForward : List Char → List Char
  | [] => []
  | c :: rest =>
      if c = '\x7d' then ['\x7d']
      else if c = '.' then scanForward rest
      else c :: scanForward rest

/-- The bounded lookahead window of extract_flag. -/
def max_search : ℕ := 200

/-- The forward part of extract_flag (src/time_decode.py, lines 45-83):
wrapped match when the marker occurs after the first terminator,
sequential match otherwise; `none` falls through to the reversed
attempt. -/
def extract_forward (bs : List ℕ) : Option (List Char) :=
  let s := strOf bs
  match findSub flagPat (lowerStr s), findCh '\x7d' s with
  | some flag_pos, some closing_pos =>
      if closing_pos < flag_pos then
        let beginning := scanBeginning (s.take (min (closing_pos + 1) s.length))
        let ending := (s.drop flag_pos).filter (fun c => !(c == '.'))
        let result := ending ++ beginning
        if flagPat.isPrefixOf result ∧ '\x7d' ∈ result then some result else none
      else
        let result := scanForward ((s.drop flag_pos).take max_search)
        if flagWord.isPrefixOf result ∧ '\x7d' ∈ result then some result else none
  | _, _ => none

/-- The reversed fallback of extract_flag (src/time_decode.py,
lines 86-100): the same sequential scan on the byte-reversed input. -/
def extract_reversed (bs : List ℕ) : Option (List Char) :=
  let s := strOf bs.reverse
  match findSub flagPat (lowerStr s) with
  | some flag_pos =>
      let result := scanForward ((s.drop flag_pos).take max_search)
      if flagWord.isPrefixOf result ∧ '\x7d' ∈ result then some result else none
  | none => none

/-- extract_flag (src/time_decode.py, lines 43-102): the forward
attempt, falling back to the byte-reversed attempt. -/
def extract_flag (bs : List ℕ) : Option (List Char) :=
  match extract_forward bs with
  | some r => some r
  | none => extract_reversed bs

/-- One entry of the result list of try_all_combinations:
`(short_is, offset, byte_order, lsb_first, flag)`. -/
structure SweepResult where
  short_is : Char
  offset : ℕ
  byte_order : List Char
  lsb_first : Bool
  flag : List Char
deriving DecidableEq

/-- The 2 x 8 x 2 combination space of the nested loops of
try_all_combinations (src/time_decode.py, lines 108-110), in iteration
order. -/
def combos : List (Char × ℕ × Bool) :=
  (['0', '1']).flatMap fun p =>
    (List.range 8).flatMap fun off =>
      ([false, true]).map fun l => (p, off, l)

/-- The body of the innermost loop of try_all_combinations
(src/time_decode.py, lines 111-117): decode under one hypothesis and
append the extracted message unless its value is already present. -/
def sweepStep (gaps : List ℚ) (threshold : ℚ) (results : List SweepResult) :
    Char × ℕ × Bool → List SweepResult
  | (p, off, l) =>
      let bitstr := bits_from_gaps gaps threshold p
      let bs := pack_bits_to_bytes bitstr off l
      match extract_flag bs with
      | some f =>
          if f ∈ results.map SweepResult.flag then results
          else results ++ [⟨p, off, if l then ['L', 'S', 'B'] else ['M', 'S', 'B'], l, f⟩]
      | none => results

/-- try_all_combinations (src/time_decode.py, lines 104-119). -/
def try_all_combinations (gaps : List ℚ) (threshold : ℚ) : List SweepResult :=
  combos.foldl (sweepStep gaps threshold) []

/-- The part of the main guard of src/time_decode.py after timestamp
parsing (lines 132-146): exit when no timestamps were found, otherwise
report the statistics and the sweep results. -/
def time_decode_main (ts : List ℚ) (threshold : ℚ) :
    Except PipelineError (ℕ × ℕ × List SweepResult) :=
  if ts.isEmpty then Except.error PipelineError.NotFound
  else
    Except.ok (ts.length, (gaps_from_timestamps ts).length,
      try_all_combinations (gaps_from_timestamps ts) threshold)

end TimeDecode

namespace FindThreshold

/-- `sorted(gaps)` (src/find_threshold.py, line 28). -/
def sortedGaps (gaps : List ℚ) : List ℚ :=
  List.insertionSort (· ≤ ·) gaps

/-- The maximal-jump scan of find_gap_clusters (src/find_threshold.py,
lines 35-39), iterated over the index list with the running
`(max_jump, split_idx)` accumulator. -/
def jumpLoop (s : List ℚ) : List ℕ → ℚ × ℕ → ℚ × ℕ
  | [], acc => acc
  | i :: rest, (mj, si) =>
      let jump := s.getD i 0 - s.getD (i - 1) 0
      if mj < jump then jumpLoop s rest (jump, i) else jumpLoop s rest (mj, si)

/-- find_gap_clusters (src/find_threshold.py, lines 26-47): `none`
models the `(None, None)` return.  On the reachable inputs (non-empty
`gaps`) `getD (si - 1)` agrees with Python indexing, including the
`s[-1]` case arising for a singleton list. -/
def find_gap_clusters (gaps : List ℚ) : Option (List ℚ × List ℚ) :=
  let s := sortedGaps gaps
  let r := jumpLoop s (List.range' 1 (s.length - 1)) (0, s.length / 2)
  if s.getD (r.2 - 1) 0 * 2 < r.1 then some (s.take r.2, s.drop r.2) else none

/-- Python `max` over a non-empty list (defaulting to 0 on `[]`, which
the scripts never reach). -/
def listMax : List ℚ → ℚ
  | [] => 0
  | x :: xs => xs.foldl max x

/-- Python `min` over a non-empty list (defaulting to 0 on `[]`). -/
def listMin : List ℚ → ℚ
  | [] => 0
  | x :: xs => xs.foldl min x

/-- statistics.median: middle element of the sorted list, or the mean
of the two middle elements for even length. -/
def median (l : List ℚ) : ℚ :=
  let s := List.insertionSort (· ≤ ·) l
  if s.length % 2 = 1 then s.getD (s.length / 2) 0
  else (s.getD (s.length / 2 - 1) 0 + s.getD (s.length / 2) 0) / 2

/-- analyze_gaps (src/find_threshold.py, lines 49-131), reduced to the
returned threshold: `none` for an empty gap list, the cluster midpoint
when a bimodal split is accepted and both clusters are non-empty
(Python truthiness of the `if cluster1 and cluster2` test), and the
median fallback otherwise.  The printed statistics do not feed the
result. -/
def analyze_gaps (gaps : List ℚ) : Option ℚ :=
  if gaps.isEmpty then none
  else
    match find_gap_clusters gaps with
    | some (c1, c2) =>
        if c1.isEmpty || c2.isEmpty then some (median gaps)
        else some ((listMax c1 + listMin c2) / 2)
    | none => some (median gaps)

end FindThreshold

namespace BitCandecoder

/-- Value of one hexadecimal digit, as accepted by Python
`int(_, 16)`. -/
def hexDigitVal (c : Char) : Option ℕ :=
  if '0' ≤ c ∧ c ≤ '9' then some (c.toNat - 48)
  else if 'a' ≤ c ∧ c ≤ 'f' then some (c.toNat - 87)
  else if 'A' ≤ c ∧ c ≤ 'F' then some (c.toNat - 55)
  else none

/-- Python `int(data[i:i+2], 16)` on a two-character chunk of a
whitespace-free payload token: two hex digits, or a sign followed by
one hex digit; anything else raises, modelled as `none`. -/
def parseHex2 (c1 c2 : Char) : Option ℤ :=
  match hexDigitVal c1, hexDigitVal c2 with
  | some d1, some d2 => some (16 * d1 + d2)
  | none, some d2 =>
      if c1 = '+' then some (d2 : ℤ)
      else if c1 = '-' then some (-(d2 : ℤ))
      else none
  | _, _ => none

/-- `str(byte_val & 1)`: the least significant bit as a character
(Python `&` on negative ints is two's complement, i.e. `emod 2`). -/
def lsbBit (v : ℤ) : Char :=
  if v % 2 = 1 then '1' else '0'

/-- The per-chunk loop of Method 1 (src/bit_candecoder.py,
lines 126-132): walk aligned two-character chunks, keep the LSB of
every chunk that parses, skip a chunk that does not parse. -/
def pairBits : List Char → List Char
  | c1 :: c2 :: rest =>
      (match parseHex2 c1 c2 with
       | some v => [lsbBit v]
       | none => []) ++ pairBits rest
  | _ => []

/-- Bits contributed by one data frame under Method 1
(src/bit_candecoder.py, lines 122-132): pad an odd-length payload with
a leading '0', then process aligned chunks. -/
def method1FrameBits (data : List Char) : List Char :=
  pairBits (if data.length % 2 = 1 then '0' :: data else data)

/-- The character class removed by Python `str.strip()` with no
arguments. -/
def isPyWhitespace (c : Char) : Bool :=
  c = ' ' || c = '\x09' || c = '\x0a' || c = '\x0d' || c = '\x0b' || c = '\x0c'

/-- The data-frame test of src/bit_candecoder.py (line 121):
`data and data != 'R' and data.strip() != ''`. -/
def isDataFrame (data : List Char) : Bool :=
  !data.isEmpty && !(data == ['R']) && data.any (fun c => !(isPyWhitespace c))

/-- The Method-1 bitstream (src/bit_candecoder.py, lines 117-136): the
concatenation, in frame order, of the bits of every data frame. -/
def method1Bits (frames : List (List Char)) : List Char :=
  (frames.filter isDataFrame).flatMap method1FrameBits

/-- The main guard of src/bit_candecoder.py after frame collection
(lines 85-87): exit when no frames were found, otherwise continue to
the encoding methods (represented by the Method-1 bitstream). -/
def bit_candecoder_main (frames : List (List Char)) :
    Except PipelineError (List Char) :=
  if frames.isEmpty then Except.error PipelineError.NotFound
  else Except.ok (method1Bits frames)

end BitCandecoder

/-- Concrete bitstream exactly encoding "flag\x7ba\x7d" in MSB order:
used to instantiate the sweep-driver theorem. -/
def c5Bits : List Char :=
  ("01100110011011000110000101100111011110110110000101111101").toList

/-- Gap list whose short gaps (1/1000 s) sit below and long gaps
(1/100 s) above the threshold 1/200 s, encoding `c5Bits` under the
short-is-'1' polarity. -/
def c5Gaps : List ℚ :=
  c5Bits.map fun c => if c = '1' then 1 / 1000 else 1 / 100

/-- The message "flag\x7ba\x7d" as characters. -/
def c5Msg : List Char := ['f', 'l', 'a', 'g', '\x7b', 'a', '\x7d']

/-- Concrete bitstream used to instantiate the byte-packer theorem. -/
def c1Bitstr : List Char := ("01100110011".toList)

/-- Concrete bimodal gap list: ten gaps of 1/1000 s and ten of
1/100 s. -/
def c2Gaps : List ℚ := List.replicate 10 (1 / 1000) ++ List.replicate 10 (1 / 100)

/-- The message "flag\x7ba.b\x7d", whose '.' collides with the
placeholder. -/
def c3M : List Char := ['f', 'l', 'a', 'g', '\x7b', 'a', '.', 'b', '\x7d']

/-- The message "flag\x7bab\x7d". -/
def c3W : List Char := ['f', 'l', 'a', 'g', '\x7b', 'a', 'b', '\x7d']

/-- The body of `c3W`, i.e. the message without its terminator. -/
def c3WBody : List Char := ['f', 'l', 'a', 'g', '\x7b', 'a', 'b']

/-- The message "flag\x7ba\x7db", whose terminator is not final. -/
def c4M : List Char := ['f', 'l', 'a', 'g', '\x7b', 'a', '\x7d', 'b']

/-- The upper-case message "FLAG\x7bA\x7d". -/
def c6M : List Char := ['F', 'L', 'A', 'G', '\x7b', 'A', '\x7d']

/-- A mixed-case message body. -/
def c6Body : List Char := ['a', 'B']

/-! ## Helper lemmas -/

/-- Unfolding of `packLoop` as a map over chunk indices. -/
theorem packLoop_spec (lsb : Bool) :
    ∀ (n : ℕ) (s : List Char), s.length ≤ n →
      TimeDecode.packLoop lsb s = (List.range (s.length / 8)).map
        (fun i => TimeDecode.chunkVal
          (if lsb then ((s.drop (8 * i)).take 8).reverse else (s.drop (8 * i)).take 8)) := by
  intro n
  induction n with
  | zero =>
      intro s hs
      have hnil : s = [] := List.length_eq_zero.mp (Nat.le_zero.mp hs)
      subst hnil
      rfl
  | succ n ih =>
      intro s hs
      rcases s with _ | ⟨b1, _ | ⟨b2, _ | ⟨b3, _ | ⟨b4, _ | ⟨b5, _ | ⟨b6, _ | ⟨b7, _ | ⟨b8, rest⟩⟩⟩⟩⟩⟩⟩⟩
      · simp [TimeDecode.packLoop]
      · simp [TimeDecode.packLoop]
      · simp [TimeDecode.packLoop]
      · simp [TimeDecode.packLoop]
      · simp [TimeDecode.packLoop]
      · simp [TimeDecode.packLoop]
      · simp [TimeDecode.packLoop]
      · simp [TimeDecode.packLoop]
      ·
        have hrest : rest.length ≤ n := by
          simp only [List.length_cons] at hs
          omega
        have hdiv : (b1 :: b2 :: b3 :: b4 :: b5 :: b6 :: b7 :: b8 :: rest).length / 8
            = rest.length / 8 + 1 := by
          simp only [List.length_cons]
          omega
        rw [TimeDecode.packLoop, ih rest hrest, hdiv, List.range_succ_eq_map]
        simp only [List.map_cons, List.map_map]
        have hhead : (List.drop (8 * 0) (b1 :: b2 :: b3 :: b4 :: b5 :: b6 :: b7 :: b8
            :: rest)).take 8 = [b1, b2, b3, b4, b5, b6, b7, b8] := by norm_num
        have htail : ∀ i : ℕ, (List.drop (8 * (i + 1)) (b1 :: b2 :: b3 :: b4 :: b5 :: b6
            :: b7 :: b8 :: rest)).take 8 = (List.drop (8 * i) rest).take 8 := by
          intro i
          have h8 : 8 * (i + 1) = 8 * i + 8 := by ring
          rw [h8]
          rfl
        refine congrArg₂ List.cons ?_ ?_
        · rw [hhead]
        · refine List.map_congr_left fun i _ => ?_
          simp only [Function.comp, Nat.succ_eq_add_one, htail i]

/-- `analyze_gaps` returns no threshold exactly on the empty gap
list. -/
theorem analyze_gaps_eq_none_iff (l : List ℚ) :
    FindThreshold.analyze_gaps l = none ↔ l = [] := by
  unfold FindThreshold.analyze_gaps
  rcases hl : l.isEmpty with _ | _
  · simp only [Bool.false_eq_true, if_false]
    rcases hc : FindThreshold.find_gap_clusters l with _ | ⟨c1, c2⟩
    · simp [List.isEmpty_iff] at hl
      simp [hl]
    · simp [List.isEmpty_iff] at hl
      simp only [hl, iff_false]
      split_ifs <;> simp
  · simp [List.isEmpty_iff] at hl
    simp [hl]

/-! ## Claims -/

/-- Claim C1: for every bitstream of '0'/'1' symbols, every bit offset
in [0, 8) and either bit order, the byte packer drops the first
`offset` symbols, groups the rest into consecutive chunks of 8
(discarding a short trailing chunk, never padding), reverses a chunk
exactly when `lsb_first`, and returns one byte value per full chunk,
so the output length is `(len - offset) / 8` (floor division).  The
function is a pure Lean function, hence deterministic. -/
theorem C1_byte_packer_spec (bitstr : List Char) (offset : ℕ) (lsb_first : Bool)
    (h01 : ∀ c ∈ bitstr, c = '0' ∨ c = '1') (hoff : offset < 8) :
    TimeDecode.pack_bits_to_bytes bitstr offset lsb_first =
      (List.range ((bitstr.length - offset) / 8)).map
        (fun i => TimeDecode.chunkVal
          (if lsb_first then (((bitstr.drop offset).drop (8 * i)).take 8).reverse
           else ((bitstr.drop offset).drop (8 * i)).take 8)) ∧
    (TimeDecode.pack_bits_to_bytes bitstr offset lsb_first).length =
      (bitstr.length - offset) / 8 := by
  have h := packLoop_spec lsb_first (bitstr.drop offset).length (bitstr.drop offset) le_rfl
  constructor
  · rw [TimeDecode.pack_bits_to_bytes, h, List.length_drop]
  · rw [TimeDecode.pack_bits_to_bytes, h]
    simp [List.length_drop]

/-- Witness for C1 at the concrete 11-symbol bitstream `c1Bitstr`,
offset 3, LSB-first order. -/
theorem C1_byte_packer_spec_witness :
    ((∀ c ∈ c1Bitstr, c = '0' ∨ c = '1') ∧ 3 < 8) ∧
    (TimeDecode.pack_bits_to_bytes c1Bitstr 3 true =
      (List.range ((c1Bitstr.length - 3) / 8)).map
        (fun i => TimeDecode.chunkVal
          (if true then (((c1Bitstr.drop 3).drop (8 * i)).take 8).reverse
           else ((c1Bitstr.drop 3).drop (8 * i)).take 8)) ∧
    (TimeDecode.pack_bits_to_bytes c1Bitstr 3 true).length =
      (c1Bitstr.length - 3) / 8) :=
  ⟨⟨by decide, by decide⟩, C1_byte_packer_spec c1Bitstr 3 true (by decide) (by decide)⟩

/-- Claim C10: the timing adapter's two polarities produce
complementary bitstreams of one symbol per gap: both have the length
of the gap list, and each list is obtained from the other by swapping
'0' and '1' pointwise (so a position holds '0' in one exactly when it
holds '1' in the other). -/
theorem C10_polarity_complement (gaps : List ℚ) (threshold : ℚ) :
    (TimeDecode.bits_from_gaps gaps threshold '0').length = gaps.length ∧
    (TimeDecode.bits_from_gaps gaps threshold '1').length = gaps.length ∧
    TimeDecode.bits_from_gaps gaps threshold '0' =
      (TimeDecode.bits_from_gaps gaps threshold '1').map
        (fun c => if c = '1' then '0' else '1') ∧
    TimeDecode.bits_from_gaps gaps threshold '1' =
      (TimeDecode.bits_from_gaps gaps threshold '0').map
        (fun c => if c = '0' then '1' else '0') := by
  refine ⟨by simp [TimeDecode.bits_from_gaps], by simp [TimeDecode.bits_from_gaps], ?_, ?_⟩ <;>
  · simp only [TimeDecode.bits_from_gaps, List.map_map]
    refine List.map_congr_left fun g _ => ?_
    by_cases h : g < threshold <;> simp [h]

/-- Claim C7: the decoders fail with NotFound exactly when the
observation list for the requested identifier is empty; the error
carries no statistics, bitstream or extraction result. -/
theorem C7_not_found_on_empty :
    (∀ (ts : List ℚ) (threshold : ℚ),
        TimeDecode.time_decode_main ts threshold =
          Except.error PipelineError.NotFound ↔ ts = []) ∧
    (∀ frames : List (List Char),
        BitCandecoder.bit_candecoder_main frames =
          Except.error PipelineError.NotFound ↔ frames = []) := by
  constructor
  · intro ts threshold
    unfold TimeDecode.time_decode_main
    rcases h : ts.isEmpty with _ | _ <;> simp_all [List.isEmpty_iff]
  · intro frames
    unfold BitCandecoder.bit_candecoder_main
    rcases h : frames.isEmpty with _ | _ <;> simp_all [List.isEmpty_iff]

/-- Claim C8: automatic threshold discovery yields no threshold
exactly for observation sequences with fewer than 2 elements (the gap
list is then empty and `analyze_gaps` returns `None`); with 2 or more
observations it always produces a threshold. -/
theorem C8_insufficient_data (ts : List ℚ) :
    FindThreshold.analyze_gaps (gaps_from_timestamps ts) = none ↔ ts.length < 2 := by
  have hlen : (gaps_from_timestamps ts).length = ts.length - 1 := by
    simp only [gaps_from_timestamps, List.length_zipWith, List.length_drop]
    omega
  rw [analyze_gaps_eq_none_iff, ← List.length_eq_zero, hlen]
  omega


/-- Running invariant of the maximal-jump scan: the accumulator value
never decreases, dominates the jump at every scanned index, and the
final pair is either the initial one or the jump/index pair at a
scanned index. -/
theorem jumpLoop_invariant (s : List ℚ) :
    ∀ (idxs : List ℕ) (mj : ℚ) (si : ℕ),
      mj ≤ (FindThreshold.jumpLoop s idxs (mj, si)).1 ∧
      (∀ i ∈ idxs,
        s.getD i 0 - s.getD (i - 1) 0 ≤ (FindThreshold.jumpLoop s idxs (mj, si)).1) ∧
      (FindThreshold.jumpLoop s idxs (mj, si) = (mj, si) ∨
        ((FindThreshold.jumpLoop s idxs (mj, si)).2 ∈ idxs ∧
         (FindThreshold.jumpLoop s idxs (mj, si)).1 =
           s.getD (FindThreshold.jumpLoop s idxs (mj, si)).2 0 -
             s.getD ((FindThreshold.jumpLoop s idxs (mj, si)).2 - 1) 0)) := by
  intro idxs
  induction idxs with
  | nil =>
      intro mj si
      exact ⟨le_rfl, by simp, Or.inl rfl⟩
  | cons i rest ih =>
      intro mj si
      have hstep : FindThreshold.jumpLoop s (i :: rest) (mj, si) =
          if mj < s.getD i 0 - s.getD (i - 1) 0
          then FindThreshold.jumpLoop s rest (s.getD i 0 - s.getD (i - 1) 0, i)
          else FindThreshold.jumpLoop s rest (mj, si) := rfl
      by_cases h : mj < s.getD i 0 - s.getD (i - 1) 0
      · rw [hstep, if_pos h]
        rcases ih (s.getD i 0 - s.getD (i - 1) 0) i with ⟨h1, h2, h3⟩
        refine ⟨le_of_lt (lt_of_lt_of_le h h1), ?_, ?_⟩
        · intro j hj
          rcases List.mem_cons.mp hj with hj | hj
          · subst hj; exact h1
          · exact h2 j hj
        · rcases h3 with h3 | ⟨hmem, heq⟩
          · right
            rw [h3]
            exact ⟨List.mem_cons_self i rest, rfl⟩
          · exact Or.inr ⟨List.mem_cons_of_mem i hmem, heq⟩
      · rw [hstep, if_neg h]
        rcases ih mj si with ⟨h1, h2, h3⟩
        refine ⟨h1, ?_, ?_⟩
        · intro j hj
          rcases List.mem_cons.mp hj with hj | hj
          · subst hj; exact le_trans (not_lt.mp h) h1
          · exact h2 j hj
        · rcases h3 with h3 | ⟨hmem, heq⟩
          · exact Or.inl h3
          · exact Or.inr ⟨List.mem_cons_of_mem i hmem, heq⟩

/-- Every initial value bounds the running maximum from below. -/
theorem le_foldl_max (ys : List ℚ) : ∀ a : ℚ, a ≤ ys.foldl max a := by
  induction ys with
  | nil => intro a; exact le_rfl
  | cons y ys ih => intro a; exact le_trans (le_max_left a y) (ih (max a y))

/-- Every member bounds the running maximum from below. -/
theorem mem_le_foldl_max (ys : List ℚ) : ∀ (a b : ℚ), b ∈ ys → b ≤ ys.foldl max a := by
  induction ys with
  | nil => intro a b hb; cases hb
  | cons y ys ih =>
      intro a b hb
      rcases List.mem_cons.mp hb with hb | hb
      · subst hb; exact le_trans (le_max_right a b) (le_foldl_max ys (max a b))
      · exact ih (max a y) b hb

/-- The running maximum stays below any common upper bound. -/
theorem foldl_max_le (ys : List ℚ) :
    ∀ a b : ℚ, a ≤ b → (∀ y ∈ ys, y ≤ b) → ys.foldl max a ≤ b := by
  induction ys with
  | nil => intro a b hab _; exact hab
  | cons y ys ih =>
      intro a b hab hy
      exact ih (max a y) b (max_le hab (hy y (List.mem_cons_self y ys)))
        fun z hz => hy z (List.mem_cons_of_mem y hz)

/-- The running minimum stays above any initial value's lower bounds. -/
theorem foldl_min_le (ys : List ℚ) : ∀ a : ℚ, ys.foldl min a ≤ a := by
  induction ys with
  | nil => intro a; exact le_rfl
  | cons y ys ih => intro a; exact le_trans (ih (min a y)) (min_le_left a y)

/-- The running minimum is below every member. -/
theorem foldl_min_le_mem (ys : List ℚ) : ∀ (a b : ℚ), b ∈ ys → ys.foldl min a ≤ b := by
  induction ys with
  | nil => intro a b hb; cases hb
  | cons y ys ih =>
      intro a b hb
      rcases List.mem_cons.mp hb with hb | hb
      · subst hb; exact le_trans (foldl_min_le ys (min a b)) (min_le_right a b)
      · exact ih (min a y) b hb

/-- Any common lower bound stays below the running minimum. -/
theorem le_foldl_min (ys : List ℚ) :
    ∀ a b : ℚ, b ≤ a → (∀ y ∈ ys, b ≤ y) → b ≤ ys.foldl min a := by
  induction ys with
  | nil => intro a b hab _; exact hab
  | cons y ys ih =>
      intro a b hab hy
      exact ih (min a y) b (le_min hab (hy y (List.mem_cons_self y ys)))
        fun z hz => hy z (List.mem_cons_of_mem y hz)

/-- Members are below the Python `max` of a list. -/
theorem le_listMax (l : List ℚ) (x : ℚ) (hx : x ∈ l) : x ≤ FindThreshold.listMax l := by
  cases l with
  | nil => cases hx
  | cons a ys =>
      rcases List.mem_cons.mp hx with hx | hx
      · subst hx; exact le_foldl_max ys x
      · exact mem_le_foldl_max ys a x hx

/-- The Python `max` of a non-empty list is below any common upper
bound. -/
theorem listMax_le (l : List ℚ) (b : ℚ) (hne : l ≠ []) (h : ∀ x ∈ l, x ≤ b) :
    FindThreshold.listMax l ≤ b := by
  cases l with
  | nil => cases hne rfl
  | cons a ys =>
      exact foldl_max_le ys a b (h a (List.mem_cons_self a ys))
        fun y hy => h y (List.mem_cons_of_mem a hy)

/-- The Python `min` of a list is below every member. -/
theorem listMin_le (l : List ℚ) (x : ℚ) (hx : x ∈ l) : FindThreshold.listMin l ≤ x := by
  cases l with
  | nil => cases hx
  | cons a ys =>
      rcases List.mem_cons.mp hx with hx | hx
      · subst hx; exact foldl_min_le ys x
      · exact foldl_min_le_mem ys a x hx

/-- Any common lower bound is below the Python `min` of a non-empty
list. -/
theorem le_listMin (l : List ℚ) (b : ℚ) (hne : l ≠ []) (h : ∀ x ∈ l, b ≤ x) :
    b ≤ FindThreshold.listMin l := by
  cases l with
  | nil => cases hne rfl
  | cons a ys =>
      exact le_foldl_min ys a b (h a (List.mem_cons_self a ys))
        fun y hy => h y (List.mem_cons_of_mem a hy)

/-- `sortedGaps` is a sorted permutation of its input. -/
theorem sortedGaps_perm (gaps : List ℚ) : List.Perm (FindThreshold.sortedGaps gaps) gaps :=
  List.perm_insertionSort _ _

/-- `sortedGaps` is sorted. -/
theorem sortedGaps_sorted (gaps : List ℚ) :
    (FindThreshold.sortedGaps gaps).Sorted (· ≤ ·) :=
  List.sorted_insertionSort _ _

/-- With non-negative gaps every `getD` lookup in the sorted list is
non-negative. -/
theorem sortedGaps_getD_nonneg (gaps : List ℚ) (hnn : ∀ g ∈ gaps, 0 ≤ g) (k : ℕ) :
    0 ≤ (FindThreshold.sortedGaps gaps).getD k 0 := by
  by_cases hk : k < (FindThreshold.sortedGaps gaps).length
  · rw [List.getD_eq_getElem _ _ hk]
    exact hnn _ ((sortedGaps_perm gaps).mem_iff.mp (List.getElem_mem hk))
  · rw [List.getD_eq_default _ _ (not_lt.mp hk)]

/-- Monotonicity of `getD` lookups in a sorted list. -/
theorem sorted_getD_mono (s : List ℚ) (hs : s.Sorted (· ≤ ·)) (j i : ℕ)
    (hji : j ≤ i) (hi : i < s.length) : s.getD j 0 ≤ s.getD i 0 := by
  have hj : j < s.length := lt_of_le_of_lt hji hi
  rw [List.getD_eq_getElem _ _ hj, List.getD_eq_getElem _ _ hi]
  rcases eq_or_lt_of_le hji with h | h
  · subst h; exact le_rfl
  · exact List.Sorted.rel_get_of_lt hs (by simpa using h)


/-- In a sorted list the Python `max` of a non-empty prefix is its last
element. -/
theorem listMax_take_sorted (s : List ℚ) (hs : s.Sorted (· ≤ ·)) (i : ℕ)
    (h0 : 0 < i) (hi : i ≤ s.length) :
    FindThreshold.listMax (s.take i) = s.getD (i - 1) 0 := by
  have him1 : i - 1 < s.length := by omega
  have hlen : (s.take i).length = i := by
    rw [List.length_take]
    omega
  apply le_antisymm
  · apply listMax_le
    · apply List.ne_nil_of_length_pos
      omega
    · intro x hx
      obtain ⟨j, hj, rfl⟩ := List.mem_iff_getElem.mp hx
      have hj2 : j < i := by omega
      have hj3 : j < s.length := by omega
      rw [List.getElem_take]
      rw [← List.getD_eq_getElem s 0 hj3]
      exact sorted_getD_mono s hs j (i - 1) (by omega) him1
  · apply le_listMax
    refine List.mem_iff_getElem.mpr ⟨i - 1, by omega, ?_⟩
    rw [List.getElem_take]
    rw [List.getD_eq_getElem s 0 him1]

/-- In a sorted list the Python `min` of a non-empty suffix is its
first element. -/
theorem listMin_drop_sorted (s : List ℚ) (hs : s.Sorted (· ≤ ·)) (i : ℕ)
    (hi : i < s.length) :
    FindThreshold.listMin (s.drop i) = s.getD i 0 := by
  have hlen : (s.drop i).length = s.length - i := List.length_drop i s
  apply le_antisymm
  · apply listMin_le
    refine List.mem_iff_getElem.mpr ⟨0, by omega, ?_⟩
    rw [List.getElem_drop]
    rw [List.getD_eq_getElem s 0 (by omega)]
    norm_num
  · apply le_listMin
    · apply List.ne_nil_of_length_pos
      omega
    · intro x hx
      obtain ⟨j, hj, rfl⟩ := List.mem_iff_getElem.mp hx
      have hj3 : i + j < s.length := by omega
      rw [List.getElem_drop]
      rw [← List.getD_eq_getElem s 0 hj3]
      exact sorted_getD_mono s hs i (i + j) (by omega) hj3

/-- Characterization of an accepted bimodal split on non-negative
gaps: the clusters are prefix and suffix of the sorted list at an
index whose jump is maximal and exceeds twice the preceding value. -/
theorem find_gap_clusters_spec (gaps : List ℚ) (hne : gaps ≠ [])
    (hnn : ∀ g ∈ gaps, 0 ≤ g) (c1 c2 : List ℚ)
    (h : FindThreshold.find_gap_clusters gaps = some (c1, c2)) :
    ∃ i, 0 < i ∧ i < (FindThreshold.sortedGaps gaps).length ∧
      c1 = (FindThreshold.sortedGaps gaps).take i ∧
      c2 = (FindThreshold.sortedGaps gaps).drop i ∧
      (∀ j, 0 < j → j < (FindThreshold.sortedGaps gaps).length →
        (FindThreshold.sortedGaps gaps).getD j 0 -
            (FindThreshold.sortedGaps gaps).getD (j - 1) 0 ≤
          (FindThreshold.sortedGaps gaps).getD i 0 -
            (FindThreshold.sortedGaps gaps).getD (i - 1) 0) ∧
      (FindThreshold.sortedGaps gaps).getD (i - 1) 0 * 2 <
        (FindThreshold.sortedGaps gaps).getD i 0 -
          (FindThreshold.sortedGaps gaps).getD (i - 1) 0 := by
  set s := FindThreshold.sortedGaps gaps with hsdef
  have hslen : s.length = gaps.length := (sortedGaps_perm gaps).length_eq
  have hpos : 0 < s.length := by
    rw [hslen]
    exact List.length_pos.mpr hne
  obtain ⟨h1, h2, h3⟩ :=
    jumpLoop_invariant s (List.range' 1 (s.length - 1)) 0 (s.length / 2)
  set r := FindThreshold.jumpLoop s (List.range' 1 (s.length - 1)) (0, s.length / 2)
    with hrdef
  have hsplit : FindThreshold.find_gap_clusters gaps =
      if s.getD (r.2 - 1) 0 * 2 < r.1 then some (s.take r.2, s.drop r.2) else none := rfl
  rw [hsplit] at h
  by_cases hacc : s.getD (r.2 - 1) 0 * 2 < r.1
  · rw [if_pos hacc] at h
    have hc : c1 = s.take r.2 ∧ c2 = s.drop r.2 := by
      have := Option.some.inj h
      exact ⟨(Prod.mk.injEq _ _ _ _ ▸ this).1.symm, (Prod.mk.injEq _ _ _ _ ▸ this).2.symm⟩
    have hr1pos : 0 < r.1 := by
      have hx := sortedGaps_getD_nonneg gaps hnn (r.2 - 1)
      rw [← hsdef] at hx
      linarith
    rcases h3 with h3 | ⟨hmem, heq⟩
    · rw [h3] at hr1pos
      exact absurd hr1pos (lt_irrefl 0)
    · have hmem2 := List.mem_range'_1.mp hmem
      refine ⟨r.2, by omega, by omega, hc.1, hc.2, ?_, ?_⟩
      · intro j hj0 hjlen
        have : j ∈ List.range' 1 (s.length - 1) := List.mem_range'_1.mpr ⟨hj0, by omega⟩
        rw [← heq]
        exact h2 j this
      · rw [← heq]
        exact hacc
  · rw [if_neg hacc] at h
    cases h


unseal Rat.add Rat.sub Rat.mul Rat.inv in
/-- Claim C2: whenever find_gap_clusters accepts a bimodal split of a
non-empty sequence of gaps (which are non-negative by the data model),
the clusters are the prefix and suffix of the sorted gap list at an
index whose jump is maximal and exceeds twice the preceding sorted
value, the returned threshold is the midpoint of `max` of the low
cluster and `min` of the high cluster, and it lies strictly between
the two; in particular ten gaps of 1/1000 s and ten of 1/100 s are
split with threshold 11/2000 s = 0.0055 s. -/
theorem C2_bimodal_threshold :
    (∀ gaps : List ℚ, gaps ≠ [] → (∀ g ∈ gaps, 0 ≤ g) →
      ∀ c1 c2 : List ℚ, FindThreshold.find_gap_clusters gaps = some (c1, c2) →
      ∃ i, 0 < i ∧ i < (FindThreshold.sortedGaps gaps).length ∧
        c1 = (FindThreshold.sortedGaps gaps).take i ∧
        c2 = (FindThreshold.sortedGaps gaps).drop i ∧
        (∀ j, 0 < j → j < (FindThreshold.sortedGaps gaps).length →
          (FindThreshold.sortedGaps gaps).getD j 0 -
              (FindThreshold.sortedGaps gaps).getD (j - 1) 0 ≤
            (FindThreshold.sortedGaps gaps).getD i 0 -
              (FindThreshold.sortedGaps gaps).getD (i - 1) 0) ∧
        (FindThreshold.sortedGaps gaps).getD (i - 1) 0 * 2 <
          (FindThreshold.sortedGaps gaps).getD i 0 -
            (FindThreshold.sortedGaps gaps).getD (i - 1) 0 ∧
        FindThreshold.analyze_gaps gaps =
          some ((FindThreshold.listMax c1 + FindThreshold.listMin c2) / 2) ∧
        FindThreshold.listMax c1 <
          (FindThreshold.listMax c1 + FindThreshold.listMin c2) / 2 ∧
        (FindThreshold.listMax c1 + FindThreshold.listMin c2) / 2 <
          FindThreshold.listMin c2) ∧
    FindThreshold.find_gap_clusters c2Gaps =
      some (List.replicate 10 ((1 : ℚ) / 1000), List.replicate 10 ((1 : ℚ) / 100)) ∧
    FindThreshold.analyze_gaps c2Gaps = some ((11 : ℚ) / 2000) := by
  refine ⟨?_, by decide, by decide⟩
  intro gaps hne hnn c1 c2 hsplit
  obtain ⟨i, hi0, hilen, hc1, hc2, hmaxj, hacc⟩ :=
    find_gap_clusters_spec gaps hne hnn c1 c2 hsplit
  have hsort := sortedGaps_sorted gaps
  have hmax : FindThreshold.listMax c1 =
      (FindThreshold.sortedGaps gaps).getD (i - 1) 0 := by
    rw [hc1]
    exact listMax_take_sorted _ hsort i hi0 (le_of_lt hilen)
  have hmin : FindThreshold.listMin c2 =
      (FindThreshold.sortedGaps gaps).getD i 0 := by
    rw [hc2]
    exact listMin_drop_sorted _ hsort i hilen
  have hnn1 := sortedGaps_getD_nonneg gaps hnn (i - 1)
  have hlt : FindThreshold.listMax c1 < FindThreshold.listMin c2 := by
    rw [hmax, hmin]
    linarith
  have hc1ne : c1.isEmpty = false := by
    rw [hc1, List.isEmpty_eq_false_iff_exists_mem]
    refine ⟨(FindThreshold.sortedGaps gaps).getD 0 0, ?_⟩
    refine List.mem_iff_getElem.mpr ⟨0, ?_, ?_⟩
    · simp [List.length_take]
      omega
    · rw [List.getElem_take]
      rw [List.getD_eq_getElem _ 0 (by omega)]
  have hc2ne : c2.isEmpty = false := by
    rw [hc2, List.isEmpty_eq_false_iff_exists_mem]
    refine ⟨(FindThreshold.sortedGaps gaps).getD i 0, ?_⟩
    refine List.mem_iff_getElem.mpr ⟨0, ?_, ?_⟩
    · simp [List.length_drop]
      omega
    · rw [List.getElem_drop]
      rw [List.getD_eq_getElem _ 0 (by omega)]
      norm_num
  have hge : gaps.isEmpty = false := List.isEmpty_eq_false.mpr hne
  have hanalyze : FindThreshold.analyze_gaps gaps =
      some ((FindThreshold.listMax c1 + FindThreshold.listMin c2) / 2) := by
    simp only [FindThreshold.analyze_gaps, hsplit, hge, hc1ne, hc2ne, Bool.false_eq_true,
      if_false, Bool.or_self]
  exact ⟨i, hi0, hilen, hc1, hc2, hmaxj, hacc, hanalyze, by linarith, by linarith⟩

unseal Rat.add Rat.sub Rat.mul Rat.inv in
/-- Witness for C2 at the concrete gap list `c2Gaps`. -/
theorem C2_bimodal_threshold_witness :
    (c2Gaps ≠ [] ∧ (∀ g ∈ c2Gaps, 0 ≤ g) ∧
      FindThreshold.find_gap_clusters c2Gaps =
        some (List.replicate 10 ((1 : ℚ) / 1000), List.replicate 10 ((1 : ℚ) / 100))) ∧
    (∃ i, 0 < i ∧ i < (FindThreshold.sortedGaps c2Gaps).length ∧
      List.replicate 10 ((1 : ℚ) / 1000) = (FindThreshold.sortedGaps c2Gaps).take i ∧
      List.replicate 10 ((1 : ℚ) / 100) = (FindThreshold.sortedGaps c2Gaps).drop i ∧
      (∀ j, 0 < j → j < (FindThreshold.sortedGaps c2Gaps).length →
        (FindThreshold.sortedGaps c2Gaps).getD j 0 -
            (FindThreshold.sortedGaps c2Gaps).getD (j - 1) 0 ≤
          (FindThreshold.sortedGaps c2Gaps).getD i 0 -
            (FindThreshold.sortedGaps c2Gaps).getD (i - 1) 0) ∧
      (FindThreshold.sortedGaps c2Gaps).getD (i - 1) 0 * 2 <
        (FindThreshold.sortedGaps c2Gaps).getD i 0 -
          (FindThreshold.sortedGaps c2Gaps).getD (i - 1) 0 ∧
      FindThreshold.analyze_gaps c2Gaps =
        some ((FindThreshold.listMax (List.replicate 10 ((1 : ℚ) / 1000)) +
          FindThreshold.listMin (List.replicate 10 ((1 : ℚ) / 100))) / 2) ∧
      FindThreshold.listMax (List.replicate 10 ((1 : ℚ) / 1000)) <
        (FindThreshold.listMax (List.replicate 10 ((1 : ℚ) / 1000)) +
          FindThreshold.listMin (List.replicate 10 ((1 : ℚ) / 100))) / 2 ∧
      (FindThreshold.listMax (List.replicate 10 ((1 : ℚ) / 1000)) +
          FindThreshold.listMin (List.replicate 10 ((1 : ℚ) / 100))) / 2 <
        FindThreshold.listMin (List.replicate 10 ((1 : ℚ) / 100))) :=
  ⟨⟨by decide, by decide, by decide⟩,
    C2_bimodal_threshold.1 c2Gaps (by decide) (by decide) _ _ (by decide)⟩


/-- One sweep step never removes an already-collected message value. -/
theorem sweepStep_flag_mono (gaps : List ℚ) (threshold : ℚ)
    (acc : List TimeDecode.SweepResult) (c : Char × ℕ × Bool) (x : List Char)
    (hx : x ∈ acc.map TimeDecode.SweepResult.flag) :
    x ∈ (TimeDecode.sweepStep gaps threshold acc c).map TimeDecode.SweepResult.flag := by
  obtain ⟨p, off, l⟩ := c
  rcases hres : TimeDecode.extract_flag
      (TimeDecode.pack_bits_to_bytes (TimeDecode.bits_from_gaps gaps threshold p) off l)
    with _ | f
  · simp only [TimeDecode.sweepStep, hres]
    exact hx
  · simp only [TimeDecode.sweepStep, hres]
    by_cases hmem : f ∈ List.map TimeDecode.SweepResult.flag acc
    · rw [if_pos hmem]
      exact hx
    · rw [if_neg hmem, List.map_append]
      exact List.mem_append_left _ hx

/-- The whole fold never removes an already-collected message value. -/
theorem sweepFold_flag_mono (gaps : List ℚ) (threshold : ℚ) :
    ∀ (cs : List (Char × ℕ × Bool)) (acc : List TimeDecode.SweepResult) (x : List Char),
      x ∈ acc.map TimeDecode.SweepResult.flag →
      x ∈ (cs.foldl (TimeDecode.sweepStep gaps threshold) acc).map
        TimeDecode.SweepResult.flag := by
  intro cs
  induction cs with
  | nil => intro acc x hx; exact hx
  | cons c rest ih =>
      intro acc x hx
      exact ih (TimeDecode.sweepStep gaps threshold acc c) x
        (sweepStep_flag_mono gaps threshold acc c x hx)

/-- A successful extraction's value is present right after its own
step. -/
theorem sweepStep_flag_mem (gaps : List ℚ) (threshold : ℚ)
    (acc : List TimeDecode.SweepResult) (p : Char) (off : ℕ) (l : Bool) (f : List Char)
    (hres : TimeDecode.extract_flag (TimeDecode.pack_bits_to_bytes
      (TimeDecode.bits_from_gaps gaps threshold p) off l) = some f) :
    f ∈ (TimeDecode.sweepStep gaps threshold acc (p, off, l)).map
      TimeDecode.SweepResult.flag := by
  simp only [TimeDecode.sweepStep, hres]
  by_cases hmem : f ∈ List.map TimeDecode.SweepResult.flag acc
  · rw [if_pos hmem]
    exact hmem
  · rw [if_neg hmem, List.map_append]
    exact List.mem_append_right _ (by simp)

/-- One sweep step preserves value-distinctness of the collected
messages. -/
theorem sweepStep_flag_nodup (gaps : List ℚ) (threshold : ℚ)
    (acc : List TimeDecode.SweepResult) (c : Char × ℕ × Bool)
    (h : (acc.map TimeDecode.SweepResult.flag).Nodup) :
    ((TimeDecode.sweepStep gaps threshold acc c).map TimeDecode.SweepResult.flag).Nodup := by
  obtain ⟨p, off, l⟩ := c
  rcases hres : TimeDecode.extract_flag
      (TimeDecode.pack_bits_to_bytes (TimeDecode.bits_from_gaps gaps threshold p) off l)
    with _ | f
  · simp only [TimeDecode.sweepStep, hres]
    exact h
  · simp only [TimeDecode.sweepStep, hres]
    by_cases hmem : f ∈ List.map TimeDecode.SweepResult.flag acc
    · rw [if_pos hmem]
      exact h
    · rw [if_neg hmem, List.map_append]
      simp [List.nodup_append, h, hmem]

/-- The whole fold preserves value-distinctness. -/
theorem sweepFold_flag_nodup (gaps : List ℚ) (threshold : ℚ) :
    ∀ (cs : List (Char × ℕ × Bool)) (acc : List TimeDecode.SweepResult),
      (acc.map TimeDecode.SweepResult.flag).Nodup →
      ((cs.foldl (TimeDecode.sweepStep gaps threshold) acc).map
        TimeDecode.SweepResult.flag).Nodup := by
  intro cs
  induction cs with
  | nil => intro acc h; exact h
  | cons c rest ih =>
      intro acc h
      exact ih (TimeDecode.sweepStep gaps threshold acc c)
        (sweepStep_flag_nodup gaps threshold acc c h)

/-- A successful extraction at a scanned combination contributes its
message to the final fold result. -/
theorem sweepFold_success_mem (gaps : List ℚ) (threshold : ℚ) :
    ∀ (cs : List (Char × ℕ × Bool)) (acc : List TimeDecode.SweepResult)
      (p : Char) (off : ℕ) (l : Bool) (f : List Char),
      (p, off, l) ∈ cs →
      TimeDecode.extract_flag (TimeDecode.pack_bits_to_bytes
        (TimeDecode.bits_from_gaps gaps threshold p) off l) = some f →
      f ∈ (cs.foldl (TimeDecode.sweepStep gaps threshold) acc).map
        TimeDecode.SweepResult.flag := by
  intro cs
  induction cs with
  | nil => intro acc p off l f hmem _; cases hmem
  | cons c rest ih =>
      intro acc p off l f hmem hres
      rcases List.mem_cons.mp hmem with hc | hc
      · subst hc
        exact sweepFold_flag_mono gaps threshold rest _ f
          (sweepStep_flag_mem gaps threshold acc p off l f hres)
      · exact ih (TimeDecode.sweepStep gaps threshold acc c) p off l f hc hres

/-- Claim C5: the sweep driver enumerates all 32 hypothesis
combinations (2 polarities x 8 offsets x 2 bit orders), keeps going
through the whole space so that every hypothesis whose extraction
succeeds contributes its message to the result list, and the collected
messages are pairwise distinct by value. -/
theorem C5_sweep_driver (gaps : List ℚ) (threshold : ℚ) :
    TimeDecode.combos.length = 32 ∧
    (∀ (p : Char) (off : ℕ) (l : Bool), (p = '0' ∨ p = '1') → off < 8 →
      (p, off, l) ∈ TimeDecode.combos) ∧
    (∀ (p : Char) (off : ℕ) (l : Bool) (f : List Char), (p, off, l) ∈ TimeDecode.combos →
      TimeDecode.extract_flag (TimeDecode.pack_bits_to_bytes
        (TimeDecode.bits_from_gaps gaps threshold p) off l) = some f →
      f ∈ (TimeDecode.try_all_combinations gaps threshold).map
        TimeDecode.SweepResult.flag) ∧
    ((TimeDecode.try_all_combinations gaps threshold).map
      TimeDecode.SweepResult.flag).Nodup := by
  refine ⟨by decide, ?_, ?_, ?_⟩
  · intro p off l hp hoff
    rcases hp with hp | hp <;> subst hp <;> interval_cases off <;> rcases l <;> decide
  · intro p off l f hmem hres
    exact sweepFold_success_mem gaps threshold TimeDecode.combos [] p off l f hmem hres
  · exact sweepFold_flag_nodup gaps threshold TimeDecode.combos [] (by simp)


unseal Rat.mul Rat.inv in
/-- Witness for C5: the concrete gap list `c5Gaps` with threshold
1/200 s decodes to "flag\x7ba\x7d" under polarity '1', offset 0,
MSB order, and that message is collected by the sweep. -/
theorem C5_sweep_driver_witness :
    (('1', 0, false) ∈ TimeDecode.combos ∧
      TimeDecode.extract_flag (TimeDecode.pack_bits_to_bytes
        (TimeDecode.bits_from_gaps c5Gaps ((1 : ℚ) / 200) '1') 0 false) = some c5Msg) ∧
    c5Msg ∈ (TimeDecode.try_all_combinations c5Gaps ((1 : ℚ) / 200)).map
      TimeDecode.SweepResult.flag :=
  ⟨⟨by decide, by decide⟩,
    (C5_sweep_driver c5Gaps ((1 : ℚ) / 200)).2.2.1 '1' 0 false c5Msg (by decide) (by decide)⟩


/-- Decoding the byte of a printable character gives the character
back. -/
theorem byteChar_toNat (c : Char) (h1 : 32 ≤ c.toNat) (h2 : c.toNat < 127) :
    TimeDecode.byteChar c.toNat = c := by
  unfold TimeDecode.byteChar
  rw [if_pos ⟨h1, h2⟩]
  exact Char.ofNat_toNat c

/-- Decoding the bytes of a printable string gives the string back. -/
theorem strOf_printable (M : List Char) (h : ∀ c ∈ M, 32 ≤ c.toNat ∧ c.toNat < 127) :
    TimeDecode.strOf (M.map Char.toNat) = M := by
  unfold TimeDecode.strOf
  rw [List.map_map]
  have hcongr : ∀ c ∈ M, (TimeDecode.byteChar ∘ Char.toNat) c = id c := fun c hc =>
    byteChar_toNat c (h c hc).1 (h c hc).2
  rw [List.map_congr_left hcongr, List.map_id]

/-- The first occurrence of a character after a clean prefix. -/
theorem findCh_append_cons (c : Char) (A B : List Char) (hA : c ∉ A) :
    TimeDecode.findCh c (A ++ c :: B) = some A.length := by
  induction A with
  | nil => simp [TimeDecode.findCh]
  | cons a t ih =>
      have ha : ¬(a = c) := fun e => hA (by rw [e]; exact List.mem_cons_self c t)
      have ht : c ∉ t := fun hc => hA (List.mem_cons_of_mem a hc)
      simp [TimeDecode.findCh, ha, ih ht]

/-- `findSub` hits immediately on a leading occurrence. -/
theorem findSub_of_leading (p s : List Char) (hp : p ≠ []) (h : p.isPrefixOf s = true) :
    TimeDecode.findSub p s = some 0 := by
  cases s with
  | nil =>
      cases p with
      | nil => cases hp rfl
      | cons a t => simp [List.isPrefixOf] at h
  | cons a t => simp [TimeDecode.findSub, h]

/-- `findSub` returns the first position of an occurrence. -/
theorem findSub_of_first (p : List Char) (hp : p ≠ []) :
    ∀ (n : ℕ) (s : List Char), (∀ m, m < n → ¬p.isPrefixOf (s.drop m) = true) →
      p.isPrefixOf (s.drop n) = true → TimeDecode.findSub p s = some n := by
  intro n
  induction n with
  | zero =>
      intro s _ h0
      exact findSub_of_leading p s hp (by simpa using h0)
  | succ n ih =>
      intro s hlt hocc
      have h0 : ¬p.isPrefixOf s = true := by simpa using hlt 0 (Nat.succ_pos n)
      cases s with
      | nil =>
          rw [List.drop_nil] at hocc
          cases p with
          | nil => cases hp rfl
          | cons a t => simp [List.isPrefixOf] at hocc
      | cons a t =>
          have hstep : TimeDecode.findSub p (a :: t) =
              (TimeDecode.findSub p t).map (· + 1) := by
            simp [TimeDecode.findSub, h0]
          rw [hstep, ih t (fun m hm => by simpa using hlt (m + 1) (by omega))
            (by simpa using hocc)]
          rfl

/-- `findSub` misses when there is no occurrence at any position. -/
theorem findSub_of_none (p : List Char) (hp : p ≠ []) :
    ∀ s : List Char, (∀ m, ¬p.isPrefixOf (s.drop m) = true) →
      TimeDecode.findSub p s = none := by
  intro s
  induction s with
  | nil =>
      intro _
      cases p with
      | nil => cases hp rfl
      | cons a t => simp [TimeDecode.findSub, List.isPrefixOf]
  | cons a t ih =>
      intro h
      have h0 : ¬p.isPrefixOf (a :: t) = true := by simpa using h 0
      simp [TimeDecode.findSub, h0, ih fun m => by simpa using h (m + 1)]

/-- The scan collects a clean run up to and including the
terminator. -/
theorem scanForward_closes (A B : List Char) (h7 : '\x7d' ∉ A) (hdot : '.' ∉ A) :
    TimeDecode.scanForward (A ++ '\x7d' :: B) = A ++ ['\x7d'] := by
  induction A with
  | nil => simp [TimeDecode.scanForward]
  | cons a t ih =>
      have h1 : ¬(a = '\x7d') := fun e => h7 (by rw [e]; exact List.mem_cons_self _ t)
      have h2 : ¬(a = '.') := fun e => hdot (by rw [e]; exact List.mem_cons_self _ t)
      have ih2 := ih (fun hc => h7 (List.mem_cons_of_mem a hc))
        (fun hc => hdot (List.mem_cons_of_mem a hc))
      simp [TimeDecode.scanForward, h1, h2, ih2]

/-- The two scanning loops of extract_flag perform the same
computation. -/
theorem scanBeginning_eq_scanForward :
    ∀ l : List Char, TimeDecode.scanBeginning l = TimeDecode.scanForward l := by
  intro l
  induction l with
  | nil => rfl
  | cons a t ih => simp only [TimeDecode.scanBeginning, TimeDecode.scanForward, ih]

/-- Filtering the placeholder out of a placeholder-free string is the
identity. -/
theorem filter_ne_dot (A : List Char) (h : '.' ∉ A) :
    A.filter (fun c => !(c == '.')) = A := by
  apply List.filter_eq_self.mpr
  intro a ha
  have : ¬(a = '.') := fun e => h (e ▸ ha)
  simp [this]

/-- A prefix of an append that fits inside the left part is a prefix
of the left part. -/
theorem prefix_of_append_left (p A B : List Char) (h : p <+: A ++ B)
    (hlen : p.length ≤ A.length) : p <+: A := by
  have ht : p = (A ++ B).take p.length := List.prefix_iff_eq_take.mp h
  rw [List.take_append_of_le_length hlen] at ht
  rw [ht]
  exact List.take_prefix p.length A


/-- `getD` through a prefix relation. -/
theorem IsPrefix_getD (x y : List Char) (h : x <+: y) (n : ℕ) (hn : n < x.length) :
    y.getD n ' ' = x.getD n ' ' := by
  obtain ⟨t, rfl⟩ := h
  rw [List.getD_eq_getElem _ _ (by rw [List.length_append]; omega),
    List.getD_eq_getElem _ _ hn]
  exact List.getElem_append_left hn

/-- `getD` in the left part of an append. -/
theorem getD_append_left_ch (l₁ l₂ : List Char) (n : ℕ) (h : n < l₁.length) :
    (l₁ ++ l₂).getD n ' ' = l₁.getD n ' ' := by
  rw [List.getD_eq_getElem _ _ (by rw [List.length_append]; omega),
    List.getD_eq_getElem _ _ h]
  exact List.getElem_append_left h

/-- `getD` through `drop`. -/
theorem getD_drop_ch (l : List Char) (m n : ℕ) (h : m + n < l.length) :
    (l.drop m).getD n ' ' = l.getD (m + n) ' ' := by
  rw [List.getD_eq_getElem _ _ (by rw [List.length_drop]; omega),
    List.getD_eq_getElem _ _ h]
  exact List.getElem_drop l

/-- `getD` through `lowerStr`. -/
theorem lowerStr_getD (l : List Char) (n : ℕ) (h : n < l.length) :
    (TimeDecode.lowerStr l).getD n ' ' = Char.toLower (l.getD n ' ') := by
  unfold TimeDecode.lowerStr
  rw [List.getD_eq_getElem _ _ (by rw [List.length_map]; omega),
    List.getD_eq_getElem _ _ h]
  exact List.getElem_map Char.toLower

/-- The marker is a prefix of every long enough prefix of a marked
string. -/
theorem flagPat_prefix_take (M : List Char) (k : ℕ)
    (h : TimeDecode.flagPat <+: M) (hk : 5 ≤ k) : TimeDecode.flagPat <+: M.take k := by
  obtain ⟨t, rfl⟩ := h
  rw [List.take_append_eq_append_take,
    List.take_of_length_le (by simp [TimeDecode.flagPat]; omega)]
  exact List.prefix_append _ _

/-- Lowercasing preserves the (lowercase) marker prefix. -/
theorem lower_flagPat_marker (B : List Char) (h : TimeDecode.flagPat <+: B) :
    TimeDecode.flagPat <+: TimeDecode.lowerStr B := by
  obtain ⟨t, rfl⟩ := h
  unfold TimeDecode.lowerStr
  rw [List.map_append]
  have hfix : TimeDecode.flagPat.map Char.toLower = TimeDecode.flagPat := by decide
  rw [hfix]
  exact List.prefix_append _ _

/-- In the wrapped buffer `tail ++ head` there is no marker occurrence
strictly inside the tail: an occurrence either lies inside the
lowercased message (ruled out by uniqueness of the leading marker) or
would have to cover the terminator character. -/
theorem wrap_no_early_occurrence (M Mbody : List Char) (k : ℕ)
    (hform : M = Mbody ++ ['\x7d'])
    (hk5 : 5 ≤ k) (hklen : k < M.length)
    (huniq : ∀ i, 0 < i → i < M.length →
      ¬TimeDecode.flagPat.isPrefixOf ((TimeDecode.lowerStr M).drop i) = true) :
    ∀ m, m < (M.drop k).length →
      ¬TimeDecode.flagPat.isPrefixOf
        ((TimeDecode.lowerStr (M.drop k ++ M.take k)).drop m) = true := by
  intro m hm hocc
  have hT : (M.drop k).length = M.length - k := List.length_drop k M
  have hkb : k ≤ Mbody.length := by
    have hMl : M.length = Mbody.length + 1 := by rw [hform]; simp
    omega
  have hMl : M.length = Mbody.length + 1 := by rw [hform]; simp
  have hlenL : (TimeDecode.lowerStr (M.drop k)).length = (M.drop k).length := by
    simp [TimeDecode.lowerStr]
  have hsplit : TimeDecode.lowerStr (M.drop k ++ M.take k) =
      TimeDecode.lowerStr (M.drop k) ++ TimeDecode.lowerStr (M.take k) :=
    List.map_append _ _ _
  rw [hsplit, List.drop_append_of_le_length (by omega)] at hocc
  have hp := List.isPrefixOf_iff_prefix.mp hocc
  by_cases hcase : m + 5 ≤ (M.drop k).length
  · have hpre5 : TimeDecode.flagPat <+: (TimeDecode.lowerStr (M.drop k)).drop m := by
      apply prefix_of_append_left _ _ _ hp
      rw [List.length_drop, hlenL]
      show TimeDecode.flagPat.length ≤ (M.drop k).length - m
      simp only [TimeDecode.flagPat, List.length_cons, List.length_nil]
      omega
    have hdd : (TimeDecode.lowerStr (M.drop k)).drop m =
        (TimeDecode.lowerStr M).drop (k + m) := by
      unfold TimeDecode.lowerStr
      rw [List.map_drop, List.drop_drop]
    rw [hdd] at hpre5
    exact huniq (k + m) (by omega) (by omega)
      (List.isPrefixOf_iff_prefix.mpr hpre5)
  · have hkey : ∀ o : ℕ, o < 5 → TimeDecode.flagPat.getD o ' ' ≠ '\x7d' := by decide
    have hple : (M.drop k).length - 1 - m < TimeDecode.flagPat.length := by
      simp only [TimeDecode.flagPat, List.length_cons, List.length_nil]
      omega
    have hval : ((TimeDecode.lowerStr (M.drop k)).drop m ++
        TimeDecode.lowerStr (M.take k)).getD ((M.drop k).length - 1 - m) ' ' =
        TimeDecode.flagPat.getD ((M.drop k).length - 1 - m) ' ' :=
      IsPrefix_getD _ _ hp _ hple
    have h1 : (M.drop k).length - 1 - m <
        ((TimeDecode.lowerStr (M.drop k)).drop m).length := by
      simp only [List.length_drop, TimeDecode.lowerStr, List.length_map]
      omega
    rw [getD_append_left_ch _ _ _ h1,
      getD_drop_ch _ m _ (by
        simp only [TimeDecode.lowerStr, List.length_map, List.length_drop]
        omega),
      lowerStr_getD _ _ (by simp only [List.length_drop]; omega)] at hval
    have hclose : (M.drop k).getD (m + ((M.drop k).length - 1 - m)) ' ' = '\x7d' := by
      rw [getD_drop_ch _ k _ (by omega)]
      have hgM : M.getD (k + (m + ((M.drop k).length - 1 - m))) ' ' =
          M.getD Mbody.length ' ' := by
        congr 1
        omega
      rw [hgM, hform, List.getD_eq_getElem _ _ (by simp),
        List.getElem_concat_length _ _ _ rfl]
    rw [hclose] at hval
    have hfinal : TimeDecode.flagPat.getD ((M.drop k).length - 1 - m) ' ' = '\x7d' := by
      rw [← hval]
      decide
    exact hkey _ (by omega) hfinal


/-- Amended claim C3: wrap-around reconstruction.  For a message M
consisting of a terminator-free body followed by the terminator,
starting with the lowercase marker, printable, containing no '.'
(the placeholder character), with no other case-insensitive marker
occurrence, and split at a position k that keeps the whole marker in
the head, the recognizer applied to `tail ++ head` detects the
wrap-around and returns exactly M. -/
theorem C3_wraparound_amended (M Mbody : List Char) (k : ℕ)
    (hform : M = Mbody ++ ['\x7d'])
    (hMb : '\x7d' ∉ Mbody)
    (hpre : TimeDecode.flagPat.isPrefixOf M = true)
    (hprint : ∀ c ∈ M, 32 ≤ c.toNat ∧ c.toNat < 127)
    (hdot : '.' ∉ M)
    (hk5 : 5 ≤ k) (hklen : k < M.length)
    (huniq : ∀ i, 0 < i → i < M.length →
      ¬TimeDecode.flagPat.isPrefixOf ((TimeDecode.lowerStr M).drop i) = true) :
    TimeDecode.extract_flag ((M.drop k ++ M.take k).map Char.toNat) = some M := by
  have hMl : M.length = Mbody.length + 1 := by rw [hform]; simp
  have hkb : k ≤ Mbody.length := by omega
  have hstr : TimeDecode.strOf ((M.drop k ++ M.take k).map Char.toNat) =
      M.drop k ++ M.take k := by
    apply strOf_printable
    intro c hc
    rcases List.mem_append.mp hc with hc | hc
    · exact hprint c (List.drop_subset k M hc)
    · exact hprint c (List.take_subset k M hc)
  have htail : M.drop k = Mbody.drop k ++ ['\x7d'] := by
    rw [hform, List.drop_append_of_le_length hkb]
  have hheadeq : M.take k = Mbody.take k := by
    rw [hform, List.take_append_of_le_length hkb]
  have hTlen : (M.drop k).length = Mbody.length - k + 1 := by
    rw [htail]
    simp [List.length_drop]
  have hnotin7 : '\x7d' ∉ Mbody.drop k := fun hc => hMb (List.drop_subset k Mbody hc)
  have hnotindot : '.' ∉ Mbody.drop k := fun hc =>
    hdot (by rw [hform]; exact List.mem_append_left _ (List.drop_subset k Mbody hc))
  have hsform : M.drop k ++ M.take k = Mbody.drop k ++ '\x7d' :: Mbody.take k := by
    rw [htail, hheadeq, List.append_assoc]
    rfl
  have hcp : TimeDecode.findCh '\x7d' (M.drop k ++ M.take k) =
      some ((Mbody.drop k).length) := by
    rw [hsform]
    exact findCh_append_cons _ _ _ hnotin7
  have hcpl : (Mbody.drop k).length = Mbody.length - k := List.length_drop _ _
  have hfp : TimeDecode.findSub TimeDecode.flagPat
      (TimeDecode.lowerStr (M.drop k ++ M.take k)) = some ((M.drop k).length) := by
    apply findSub_of_first _ (by decide)
    · exact fun m hm => wrap_no_early_occurrence M Mbody k hform hk5 hklen huniq m hm
    · have hdropT : (TimeDecode.lowerStr (M.drop k ++ M.take k)).drop
          ((M.drop k).length) = TimeDecode.lowerStr (M.take k) := by
        rw [show TimeDecode.lowerStr (M.drop k ++ M.take k) =
          TimeDecode.lowerStr (M.drop k) ++ TimeDecode.lowerStr (M.take k) from
          List.map_append _ _ _]
        exact List.drop_left' (by simp [TimeDecode.lowerStr])
      rw [hdropT]
      exact List.isPrefixOf_iff_prefix.mpr
        (lower_flagPat_marker _ (flagPat_prefix_take M k
          (List.isPrefixOf_iff_prefix.mp hpre) hk5))
  have hfwd : TimeDecode.extract_forward ((M.drop k ++ M.take k).map Char.toNat) =
      some M := by
    simp only [TimeDecode.extract_forward, hstr, hfp, hcp]
    rw [if_pos (by rw [hcpl, hTlen]; omega :
      (Mbody.drop k).length < (M.drop k).length)]
    have hmin : min ((Mbody.drop k).length + 1) ((M.drop k ++ M.take k).length) =
        (M.drop k).length := by
      simp only [List.length_append, List.length_drop, List.length_take, hcpl, hTlen]
      omega
    rw [hmin]
    rw [List.take_left' rfl]
    have hscan : TimeDecode.scanBeginning (M.drop k) = M.drop k := by
      rw [scanBeginning_eq_scanForward, htail]
      exact scanForward_closes _ [] hnotin7 hnotindot
    rw [hscan]
    rw [List.drop_left' rfl]
    rw [filter_ne_dot _ (fun hc => hdot (List.take_subset k M hc))]
    rw [List.take_append_drop]
    rw [if_pos ⟨hpre, by rw [hform]; exact List.mem_append_right _ (by simp)⟩]
  unfold TimeDecode.extract_flag
  rw [hfwd]


/-- Every message returned by the forward attempt passes the
case-sensitive lowercase-marker validation. -/
theorem extract_forward_starts (bs : List ℕ) (r : List Char)
    (h : TimeDecode.extract_forward bs = some r) :
    TimeDecode.flagWord.isPrefixOf r = true := by
  rcases hf : TimeDecode.findSub TimeDecode.flagPat
      (TimeDecode.lowerStr (TimeDecode.strOf bs)) with _ | fp <;>
    rcases hc : TimeDecode.findCh '\x7d' (TimeDecode.strOf bs) with _ | cp <;>
    simp only [TimeDecode.extract_forward, hf, hc] at h
  · cases h
  · cases h
  · cases h
  · split_ifs at h with h1 h2 h3
    · have hr := Option.some.inj h
      subst hr
      exact List.isPrefixOf_iff_prefix.mpr
        (List.IsPrefix.trans (by decide) (List.isPrefixOf_iff_prefix.mp h2.1))
    · have hr := Option.some.inj h
      subst hr
      exact h3.1

/-- Every message returned by the reversed fallback passes the
case-sensitive lowercase-marker validation. -/
theorem extract_reversed_starts (bs : List ℕ) (r : List Char)
    (h : TimeDecode.extract_reversed bs = some r) :
    TimeDecode.flagWord.isPrefixOf r = true := by
  rcases hf : TimeDecode.findSub TimeDecode.flagPat
      (TimeDecode.lowerStr (TimeDecode.strOf bs.reverse)) with _ | fp <;>
    simp only [TimeDecode.extract_reversed, hf] at h
  · cases h
  · split_ifs at h with h1
    have hr := Option.some.inj h
    subst hr
    exact h1.1

/-- Every message returned by extract_flag passes the case-sensitive
lowercase-marker validation. -/
theorem extract_flag_starts (bs : List ℕ) (r : List Char)
    (h : TimeDecode.extract_flag bs = some r) :
    TimeDecode.flagWord.isPrefixOf r = true := by
  rcases hfw : TimeDecode.extract_forward bs with _ | q <;>
    simp only [TimeDecode.extract_flag, hfw] at h
  · exact extract_reversed_starts bs r h
  · rcases Option.some.inj h with rfl
    exact extract_forward_starts bs q hfw


/-- Counterexample to claim C3 as stated: the printable message
"flag\x7ba.b\x7d" starts with the marker and ends with the
terminator, yet splitting it at position 6 and feeding `tail ++ head`
to the recognizer yields "flag\x7bab\x7d" — the '.' of the message is
stripped as a placeholder — so the original message is not
reconstructed. -/
theorem C3_wraparound_counterexample :
    (TimeDecode.flagPat.isPrefixOf c3M = true ∧
      c3M.getLast? = some '\x7d' ∧
      (∀ c ∈ c3M, 32 ≤ c.toNat ∧ c.toNat < 127) ∧
      0 < 6 ∧ 6 < c3M.length) ∧
    TimeDecode.extract_flag ((c3M.drop 6 ++ c3M.take 6).map Char.toNat) =
      some ['f', 'l', 'a', 'g', '\x7b', 'a', 'b', '\x7d'] ∧
    ¬TimeDecode.extract_flag ((c3M.drop 6 ++ c3M.take 6).map Char.toNat) = some c3M := by
  decide

/-- Witness for the amended C3 at the message "flag\x7bab\x7d" split
at position 6. -/
theorem C3_wraparound_amended_witness :
    (c3W = c3WBody ++ ['\x7d'] ∧ '\x7d' ∉ c3WBody ∧
      TimeDecode.flagPat.isPrefixOf c3W = true ∧
      (∀ c ∈ c3W, 32 ≤ c.toNat ∧ c.toNat < 127) ∧ '.' ∉ c3W ∧
      5 ≤ 6 ∧ 6 < c3W.length ∧
      (∀ i, i < c3W.length → 0 < i →
        ¬TimeDecode.flagPat.isPrefixOf ((TimeDecode.lowerStr c3W).drop i) = true)) ∧
    TimeDecode.extract_flag ((c3W.drop 6 ++ c3W.take 6).map Char.toNat) = some c3W :=
  ⟨⟨by decide, by decide, by decide, by decide, by decide, by decide, by decide, by decide⟩,
    C3_wraparound_amended c3W c3WBody 6 (by decide) (by decide) (by decide) (by decide)
      (by decide) (by decide) (by decide)
      (fun i h1 h2 =>
        (by decide : ∀ j, j < c3W.length → 0 < j →
          ¬TimeDecode.flagPat.isPrefixOf ((TimeDecode.lowerStr c3W).drop j) = true) i h2 h1)⟩

/-- Amended claim C4: reversal recovery.  For a message whose only
terminator is its final character, of length at most the lookahead
window, containing no placeholder character, and whose reversal
contains no case-insensitive marker occurrence, the recognizer applied
to the byte-reversed message finds no forward match and recovers the
message through the reversed fallback; moreover a forward match, when
it exists, is always returned as is — the fallback never overrides
it. -/
theorem C4_reversal_amended :
    (∀ M Mbody : List Char,
      M = Mbody ++ ['\x7d'] → '\x7d' ∉ Mbody →
      TimeDecode.flagPat.isPrefixOf M = true →
      (∀ c ∈ M, 32 ≤ c.toNat ∧ c.toNat < 127) →
      '.' ∉ M → M.length ≤ 200 →
      TimeDecode.findSub TimeDecode.flagPat (TimeDecode.lowerStr M.reverse) = none →
      TimeDecode.extract_forward ((M.map Char.toNat).reverse) = none ∧
      TimeDecode.extract_flag ((M.map Char.toNat).reverse) = some M) ∧
    (∀ (bs : List ℕ) (r : List Char),
      TimeDecode.extract_forward bs = some r → TimeDecode.extract_flag bs = some r) := by
  constructor
  · intro M Mbody hform hMb hpre hprint hdot hlen hnorev
    have hrev : TimeDecode.strOf ((M.map Char.toNat).reverse) = M.reverse := by
      rw [← List.map_reverse]
      exact strOf_printable _ (fun c hc => hprint c (List.mem_reverse.mp hc))
    have hfwd : TimeDecode.extract_forward ((M.map Char.toNat).reverse) = none := by
      rcases hc : TimeDecode.findCh '\x7d'
          (TimeDecode.strOf ((M.map Char.toNat).reverse)) with _ | cp <;>
        simp only [TimeDecode.extract_forward, hrev, hnorev, hc]
    refine ⟨hfwd, ?_⟩
    have hrev2 : TimeDecode.strOf (((M.map Char.toNat).reverse).reverse) = M := by
      rw [List.reverse_reverse]
      exact strOf_printable M hprint
    have hfp0 : TimeDecode.findSub TimeDecode.flagPat (TimeDecode.lowerStr M) = some 0 := by
      apply findSub_of_leading _ _ (by decide)
      exact List.isPrefixOf_iff_prefix.mpr
        (lower_flagPat_marker M (List.isPrefixOf_iff_prefix.mp hpre))
    have hdotb : '.' ∉ Mbody := fun hc =>
      hdot (by rw [hform]; exact List.mem_append_left _ hc)
    have hscan : TimeDecode.scanForward ((M.drop 0).take TimeDecode.max_search) = M := by
      rw [List.drop_zero, show TimeDecode.max_search = 200 from rfl,
        List.take_of_length_le hlen, hform]
      exact scanForward_closes Mbody [] hMb hdotb
    unfold TimeDecode.extract_flag
    rw [hfwd]
    simp only [TimeDecode.extract_reversed, hrev2, hfp0]
    rw [hscan]
    rw [if_pos ⟨List.isPrefixOf_iff_prefix.mpr
      (List.IsPrefix.trans (by decide) (List.isPrefixOf_iff_prefix.mp hpre)),
      by rw [hform]; exact List.mem_append_right _ (by simp)⟩]
  · intro bs r h
    unfold TimeDecode.extract_flag
    rw [h]

/-- Counterexample to claim C4 as stated: "flag\x7ba\x7db" starts
with the marker and contains the terminator, yet the recognizer
applied to its byte-reversed form returns "flag\x7ba\x7d" — the
characters after the terminator are lost — so the original message is
not recovered. -/
theorem C4_reversal_counterexample :
    (TimeDecode.flagPat.isPrefixOf c4M = true ∧ '\x7d' ∈ c4M ∧
      (∀ c ∈ c4M, 32 ≤ c.toNat ∧ c.toNat < 127)) ∧
    TimeDecode.extract_flag ((c4M.map Char.toNat).reverse) =
      some ['f', 'l', 'a', 'g', '\x7b', 'a', '\x7d'] ∧
    ¬TimeDecode.extract_flag ((c4M.map Char.toNat).reverse) = some c4M := by
  decide

/-- Witness for the amended C4 at the message "flag\x7bab\x7d". -/
theorem C4_reversal_amended_witness :
    (c3W = c3WBody ++ ['\x7d'] ∧ '\x7d' ∉ c3WBody ∧
      TimeDecode.flagPat.isPrefixOf c3W = true ∧
      (∀ c ∈ c3W, 32 ≤ c.toNat ∧ c.toNat < 127) ∧ '.' ∉ c3W ∧ c3W.length ≤ 200 ∧
      TimeDecode.findSub TimeDecode.flagPat (TimeDecode.lowerStr c3W.reverse) = none) ∧
    (TimeDecode.extract_forward ((c3W.map Char.toNat).reverse) = none ∧
      TimeDecode.extract_flag ((c3W.map Char.toNat).reverse) = some c3W) :=
  ⟨⟨by decide, by decide, by decide, by decide, by decide, by decide, by decide⟩,
    C4_reversal_amended.1 c3W c3WBody (by decide) (by decide) (by decide) (by decide)
      (by decide) (by decide) (by decide)⟩

/-- Amended claim C6: the search for the marker is case-insensitive,
but the final validation is case-sensitive on the lowercase marker, so
every returned message starts with the literal lowercase "flag"; when
the marker appears in lowercase, the body of the message is returned
with its original character cases preserved. -/
theorem C6_case_sensitivity_amended :
    (∀ (bs : List ℕ) (m : List Char), TimeDecode.extract_flag bs = some m →
      TimeDecode.flagWord.isPrefixOf m = true) ∧
    (∀ body : List Char, (∀ c ∈ body, 32 ≤ c.toNat ∧ c.toNat < 127) →
      '.' ∉ body → '\x7d' ∉ body → body.length ≤ 194 →
      TimeDecode.extract_flag
        ((TimeDecode.flagPat ++ body ++ ['\x7d']).map Char.toNat) =
      some (TimeDecode.flagPat ++ body ++ ['\x7d'])) := by
  constructor
  · exact extract_flag_starts
  · intro body hprint hdot h7 hlen
    have hMprint : ∀ c ∈ TimeDecode.flagPat ++ body ++ ['\x7d'],
        32 ≤ c.toNat ∧ c.toNat < 127 := by
      intro c hc
      rcases List.mem_append.mp hc with hc | hc
      · rcases List.mem_append.mp hc with hc | hc
        · simp only [TimeDecode.flagPat, List.mem_cons, List.not_mem_nil, or_false] at hc
          rcases hc with rfl | rfl | rfl | rfl | rfl <;> decide
        · exact hprint c hc
      · simp only [List.mem_singleton] at hc
        subst hc
        decide
    have hstr : TimeDecode.strOf ((TimeDecode.flagPat ++ body ++ ['\x7d']).map
        Char.toNat) = TimeDecode.flagPat ++ body ++ ['\x7d'] :=
      strOf_printable _ hMprint
    have hMpre : TimeDecode.flagPat <+: TimeDecode.flagPat ++ body ++ ['\x7d'] :=
      ⟨body ++ ['\x7d'], by rw [List.append_assoc]⟩
    have hfp : TimeDecode.findSub TimeDecode.flagPat
        (TimeDecode.lowerStr (TimeDecode.flagPat ++ body ++ ['\x7d'])) = some 0 :=
      findSub_of_leading _ _ (by decide)
        (List.isPrefixOf_iff_prefix.mpr (lower_flagPat_marker _ hMpre))
    have h7A : '\x7d' ∉ TimeDecode.flagPat ++ body := by
      intro hc
      rcases List.mem_append.mp hc with hc | hc
      · exact absurd hc (by decide)
      · exact h7 hc
    have hdotA : '.' ∉ TimeDecode.flagPat ++ body := by
      intro hc
      rcases List.mem_append.mp hc with hc | hc
      · exact absurd hc (by decide)
      · exact hdot hc
    have hcp : TimeDecode.findCh '\x7d' (TimeDecode.flagPat ++ body ++ ['\x7d']) =
        some ((TimeDecode.flagPat ++ body).length) :=
      findCh_append_cons _ _ _ h7A
    have hscan : TimeDecode.scanForward
        (((TimeDecode.flagPat ++ body ++ ['\x7d']).drop 0).take TimeDecode.max_search) =
        TimeDecode.flagPat ++ body ++ ['\x7d'] := by
      rw [List.drop_zero, show TimeDecode.max_search = 200 from rfl,
        List.take_of_length_le (by
          simp only [List.length_append, TimeDecode.flagPat, List.length_cons,
            List.length_nil, List.length_singleton]
          omega)]
      exact scanForward_closes _ [] h7A hdotA
    have hfwd : TimeDecode.extract_forward
        ((TimeDecode.flagPat ++ body ++ ['\x7d']).map Char.toNat) =
        some (TimeDecode.flagPat ++ body ++ ['\x7d']) := by
      simp only [TimeDecode.extract_forward, hstr, hfp, hcp]
      rw [if_neg (by omega : ¬(TimeDecode.flagPat ++ body).length < 0)]
      rw [hscan]
      rw [if_pos ⟨List.isPrefixOf_iff_prefix.mpr
        (List.IsPrefix.trans (by decide) hMpre),
        List.mem_append_right _ (by simp)⟩]
    unfold TimeDecode.extract_flag
    rw [hfwd]

/-- Counterexample to claim C6 as stated: on the bytes of
"FLAG\x7bA\x7d" the case-insensitive search does find the marker (at
position 0) and the terminator, but the recognizer returns no match at
all instead of the upper-case message, because the validation
`startswith('flag')` is case-sensitive. -/
theorem C6_case_sensitivity_counterexample :
    TimeDecode.findSub TimeDecode.flagPat (TimeDecode.lowerStr c6M) = some 0 ∧
    TimeDecode.findCh '\x7d' c6M = some 6 ∧
    TimeDecode.extract_flag (c6M.map Char.toNat) = none := by
  decide

/-- Witness for the amended C6 at the mixed-case body "aB". -/
theorem C6_case_sensitivity_amended_witness :
    ((∀ c ∈ c6Body, 32 ≤ c.toNat ∧ c.toNat < 127) ∧ '.' ∉ c6Body ∧
      '\x7d' ∉ c6Body ∧ c6Body.length ≤ 194) ∧
    TimeDecode.extract_flag ((TimeDecode.flagPat ++ c6Body ++ ['\x7d']).map Char.toNat) =
      some (TimeDecode.flagPat ++ c6Body ++ ['\x7d']) :=
  ⟨⟨by decide, by decide, by decide, by decide⟩,
    C6_case_sensitivity_amended.2 c6Body (by decide) (by decide) (by decide) (by decide)⟩


/-- Two-step induction on character lists. -/
theorem twoStepInduction {motive : List Char → Prop} (h0 : motive [])
    (h1 : ∀ c, motive [c])
    (h2 : ∀ c1 c2 rest, motive rest → motive (c1 :: c2 :: rest)) :
    ∀ l : List Char, motive l := by
  have key : ∀ (n : ℕ) (l : List Char), l.length ≤ n → motive l := by
    intro n
    induction n with
    | zero =>
        intro l hl
        have : l = [] := List.length_eq_zero.mp (Nat.le_zero.mp hl)
        rw [this]
        exact h0
    | succ n ih =>
        intro l hl
        rcases l with _ | ⟨c1, _ | ⟨c2, rest⟩⟩
        · exact h0
        · exact h1 c1
        · refine h2 c1 c2 rest (ih rest ?_)
          simp only [List.length_cons] at hl
          omega
  exact fun l => key l.length l le_rfl

/-- The chunk walk distributes over an even-length prefix. -/
theorem pairBits_append (pre : List Char) (hpre : 2 ∣ pre.length) (xs : List Char) :
    BitCandecoder.pairBits (pre ++ xs) =
      BitCandecoder.pairBits pre ++ BitCandecoder.pairBits xs := by
  induction pre using twoStepInduction generalizing xs with
  | h0 => simp [BitCandecoder.pairBits]
  | h1 c =>
      exfalso
      simp only [List.length_singleton] at hpre
      omega
  | h2 c1 c2 rest ih =>
      simp only [List.length_cons] at hpre
      have hrest : 2 ∣ rest.length := by omega
      simp only [List.cons_append, BitCandecoder.pairBits, List.append_eq]
      rw [ih hrest xs, List.append_assoc]

/-- A whitespace character is not a hex digit and not a sign. -/
theorem parseHex2_whitespace (c1 c2 : Char)
    (h : BitCandecoder.isPyWhitespace c1 = true) :
    BitCandecoder.parseHex2 c1 c2 = none := by
  have hdv : BitCandecoder.hexDigitVal c1 = none ∧ ¬(c1 = '+') ∧ ¬(c1 = '-') := by
    simp only [BitCandecoder.isPyWhitespace, Bool.or_eq_true, decide_eq_true_eq] at h
    rcases h with ((((h | h) | h) | h) | h) | h <;> subst h <;>
      exact ⟨by decide, by decide, by decide⟩
  rcases hd : BitCandecoder.hexDigitVal c2 with _ | d
  · simp [BitCandecoder.parseHex2, hdv.1, hd]
  · simp [BitCandecoder.parseHex2, hdv.1, hd, hdv.2.1, hdv.2.2]

/-- An all-whitespace payload contributes no bits. -/
theorem pairBits_whitespace :
    ∀ d : List Char, (∀ c ∈ d, BitCandecoder.isPyWhitespace c = true) →
      BitCandecoder.pairBits d = [] := by
  refine twoStepInduction (by intro _; rfl) (by intro c _; rfl) ?_
  intro c1 c2 rest ih h
  have hskip := parseHex2_whitespace c1 c2 (h c1 (List.mem_cons_self _ _))
  simp only [BitCandecoder.pairBits, hskip, List.nil_append]
  exact ih fun c hc => h c (List.mem_cons_of_mem c1 (List.mem_cons_of_mem c2 hc))

/-- The data-frame test fails exactly on empty, remote-marker and
all-whitespace payloads. -/
theorem isDataFrame_eq_false_iff (d : List Char) :
    BitCandecoder.isDataFrame d = false ↔
      d = [] ∨ d = ['R'] ∨ ∀ c ∈ d, BitCandecoder.isPyWhitespace c = true := by
  simp only [BitCandecoder.isDataFrame, Bool.and_eq_false_iff, Bool.not_eq_false',
    List.isEmpty_iff, beq_iff_eq, List.any_eq_false, Bool.not_eq_true,
    Bool.not_eq_false]
  constructor
  · intro h
    rcases h with h | h
    · rcases h with h | h
      · exact Or.inl h
      · exact Or.inr (Or.inl h)
    · exact Or.inr (Or.inr fun c hc => by simpa using h c hc)
  · intro h
    rcases h with h | h | h
    · exact Or.inl (Or.inl h)
    · exact Or.inl (Or.inr h)
    · exact Or.inr fun c hc => by simpa using h c hc


/-- Contribution of one frame in the middle of the log to the Method-1
bitstream. -/
theorem method1Bits_middle (fs1 fs2 : List (List Char)) (f : List Char) :
    BitCandecoder.method1Bits (fs1 ++ f :: fs2) =
      BitCandecoder.method1Bits fs1 ++
        (if BitCandecoder.isDataFrame f = true then BitCandecoder.method1FrameBits f
         else []) ++
        BitCandecoder.method1Bits fs2 := by
  unfold BitCandecoder.method1Bits
  by_cases hf : BitCandecoder.isDataFrame f = true <;>
    simp [hf, List.filter_append, List.filter_cons, List.flatMap_append,
      List.flatMap_cons, List.append_assoc]

/-- Claim C9: in the content adapter an unparseable aligned payload
pair contributes no bit and is simply skipped: the Method-1 bitstream
of a log containing the pair equals the bitstream of the same log with
the pair removed, and the frames before, inside and after the affected
frame keep contributing normally. -/
theorem C9_malformed_chunk_skipped (fs1 fs2 : List (List Char)) (pre post : List Char)
    (c1 c2 : Char)
    (hbad : BitCandecoder.parseHex2 c1 c2 = none)
    (hpre : 2 ∣ pre.length) (hpost : 2 ∣ post.length) :
    BitCandecoder.method1Bits (fs1 ++ (pre ++ [c1, c2] ++ post) :: fs2) =
      BitCandecoder.method1Bits (fs1 ++ (pre ++ post) :: fs2) := by
  have hFb : BitCandecoder.method1FrameBits (pre ++ [c1, c2] ++ post) =
      BitCandecoder.pairBits pre ++ BitCandecoder.pairBits post := by
    unfold BitCandecoder.method1FrameBits
    rw [if_neg (by
      simp only [List.length_append, List.length_cons, List.length_nil]
      omega)]
    rw [List.append_assoc, pairBits_append pre hpre]
    simp only [List.cons_append, List.nil_append, BitCandecoder.pairBits, hbad]
    rfl
  have hF2b : BitCandecoder.method1FrameBits (pre ++ post) =
      BitCandecoder.pairBits pre ++ BitCandecoder.pairBits post := by
    unfold BitCandecoder.method1FrameBits
    rw [if_neg (by
      simp only [List.length_append]
      omega)]
    exact pairBits_append pre hpre post
  rw [method1Bits_middle, method1Bits_middle]
  have hkey : (if BitCandecoder.isDataFrame (pre ++ [c1, c2] ++ post) = true
      then BitCandecoder.method1FrameBits (pre ++ [c1, c2] ++ post) else []) =
      (if BitCandecoder.isDataFrame (pre ++ post) = true
      then BitCandecoder.method1FrameBits (pre ++ post) else []) := by
    by_cases hd2 : BitCandecoder.isDataFrame (pre ++ post) = true
    · have hd1 : BitCandecoder.isDataFrame (pre ++ [c1, c2] ++ post) = true := by
        rcases hb : BitCandecoder.isDataFrame (pre ++ [c1, c2] ++ post) with _ | _
        · exfalso
          rcases (isDataFrame_eq_false_iff _).mp hb with h0 | h0 | h0
          · have := congrArg List.length h0
            simp only [List.length_append, List.length_cons, List.length_nil] at this
            omega
          · have := congrArg List.length h0
            simp only [List.length_append, List.length_cons, List.length_nil] at this
            omega
          · have : BitCandecoder.isDataFrame (pre ++ post) = false := by
              refine (isDataFrame_eq_false_iff _).mpr (Or.inr (Or.inr ?_))
              intro c hc
              rcases List.mem_append.mp hc with hc | hc
              · exact h0 c (List.mem_append_left _ (List.mem_append_left _ hc))
              · exact h0 c (List.mem_append_right _ hc)
            rw [this] at hd2
            cases hd2
        · rfl
      rw [if_pos hd1, if_pos hd2, hFb, hF2b]
    · have hd2f : BitCandecoder.isDataFrame (pre ++ post) = false := by
        rcases hb : BitCandecoder.isDataFrame (pre ++ post) with _ | _
        · rfl
        · exact absurd hb hd2
      rw [if_neg hd2]
      by_cases hd1 : BitCandecoder.isDataFrame (pre ++ [c1, c2] ++ post) = true
      · rw [if_pos hd1, hFb]
        rcases (isDataFrame_eq_false_iff _).mp hd2f with h0 | h0 | h0
        · rcases List.append_eq_nil.mp h0 with ⟨h1, h2⟩
          rw [h1, h2]
          rfl
        · exfalso
          have := congrArg List.length h0
          simp only [List.length_append, List.length_cons, List.length_nil] at this
          omega
        · rw [pairBits_whitespace pre fun c hc => h0 c (List.mem_append_left _ hc),
            pairBits_whitespace post fun c hc => h0 c (List.mem_append_right _ hc)]
          rfl
      · rw [if_neg hd1]
  rw [hkey]


/-- Witness for C9: a three-frame log whose middle frame contains the
unparseable pair "XY". -/
theorem C9_malformed_chunk_skipped_witness :
    (BitCandecoder.parseHex2 'X' 'Y' = none ∧
      2 ∣ (['0', '2'] : List Char).length ∧ 2 ∣ (['0', '3'] : List Char).length) ∧
    BitCandecoder.method1Bits
        ([['0', '2']] ++ (['0', '2'] ++ ['X', 'Y'] ++ ['0', '3']) :: [['0', '4']]) =
      BitCandecoder.method1Bits
        ([['0', '2']] ++ (['0', '2'] ++ ['0', '3']) :: [['0', '4']]) :=
  ⟨⟨by decide, by decide, by decide⟩,
    C9_malformed_chunk_skipped [['0', '2']] [['0', '4']] ['0', '2'] ['0', '3'] 'X' 'Y'
      (by decide) (by decide) (by decide)⟩

end CarHacking
